import Mathlib

/-!
Verification development for the scoop shim launcher.

The repository contains two C++ implementations of the same shim:
`shim.cpp` (the file compiled by `build.zig`) and an optimized rewrite
(`src/unnamed/part_000`).  Both are embedded below.  Text is modelled as
`List Char` (wide strings), the process environment as an association
list queried by `getEnv` (modelling `_wdupenv_s`), and the operating
system's process facilities as an oracle record `OS`.

Definitions suffixed with `Shim` are translated from `shim.cpp`;
definitions suffixed with `Opt` are translated from the optimized
variant.  Shared helpers that both sources implement identically are
defined once.
-/

/-- The process environment block: an association list from variable
names to values, most recent write first (`getEnv` finds the first
match, so prepending models `_wputenv_s` overwriting). -/
def Env : Type := List (List Char × List Char)

/-- Environment lookup, modelling `_wdupenv_s`: `none` when the
variable is absent. -/
def getEnv : Env → List Char → Option (List Char)
  | [], _ => none
  | (n, v) :: rest, name => if n = name then some v else getEnv rest name

/-- Model of `GetVariableValue` from `shim.cpp`: returns the empty string when
`_wdupenv_s` fails (variable absent), the value otherwise. -/
def getVariableValue (env : Env) (name : List Char) : List Char :=
  (getEnv env name).getD []

/-- Splits a character list at the first `'%'` delimiter, modelling
`str.find(L"%", searchPos)`: `some (pre, rest)` means the input is
`pre ++ '%' :: rest` with no `'%'` in `pre`; `none` means no delimiter
occurs. -/
def breakAtPct : List Char → Option (List Char × List Char)
  | [] => none
  | c :: cs =>
    if c = '%' then some ([], cs)
    else (breakAtPct cs).map (fun p => (c :: p.1, p.2))

theorem breakAtPct_some {l pre rest : List Char}
    (h : breakAtPct l = some (pre, rest)) :
    l = pre ++ '%' :: rest ∧ '%' ∉ pre := by
  induction l generalizing pre rest with
  | nil => simp [breakAtPct] at h
  | cons c cs ih =>
    rw [breakAtPct] at h
    by_cases hc : c = '%'
    · subst hc
      rw [if_pos rfl] at h
      simp only [Option.some.injEq, Prod.mk.injEq] at h
      obtain ⟨rfl, rfl⟩ := h
      simp
    · rw [if_neg hc, Option.map_eq_some'] at h
      obtain ⟨⟨p1, p2⟩, hp, heq⟩ := h
      simp only [Prod.mk.injEq] at heq
      obtain ⟨rfl, rfl⟩ := heq
      obtain ⟨he, hn⟩ := ih hp
      refine ⟨by rw [he]; rfl, ?_⟩
      simp only [List.mem_cons, not_or]
      exact ⟨fun hcc => hc hcc.symm, hn⟩

theorem breakAtPct_cons_pct (l : List Char) :
    breakAtPct ('%' :: l) = some ([], l) := by
  simp [breakAtPct]

theorem breakAtPct_append {u : List Char} (hu : '%' ∉ u) (l : List Char) :
    breakAtPct (u ++ l) = (breakAtPct l).map (fun p => (u ++ p.1, p.2)) := by
  induction u with
  | nil => simp [Option.map_id']
  | cons c cs ih =>
    simp only [List.mem_cons, not_or] at hu
    obtain ⟨hc, hcs⟩ := hu
    have hc' : ¬c = '%' := fun h => hc h.symm
    rw [List.cons_append, breakAtPct, if_neg hc', ih hcs]
    cases breakAtPct l <;> simp

theorem breakAtPct_append_pct {u : List Char} (hu : '%' ∉ u) (l : List Char) :
    breakAtPct (u ++ '%' :: l) = some (u, l) := by
  rw [breakAtPct_append hu, breakAtPct_cons_pct]
  simp

theorem breakAtPct_some_length {l pre rest : List Char}
    (h : breakAtPct l = some (pre, rest)) :
    rest.length < l.length := by
  obtain ⟨he, -⟩ := breakAtPct_some h
  subst he
  simp only [List.length_append, List.length_cons]
  omega

/-- One iteration of the scanning loop of `ExpandEnvVars` (optimized
variant, lines 141-192), with `recur` standing for the continuation of
the loop past the current `%NAME%` span: `%%` is skipped as a literal
escape; an unresolvable name is left in place and scanning resumes
past the closing `%`; a resolved name is replaced by its value and
scanning resumes after the replacement text (never re-scanned); a `%`
with no closing delimiter (or none at all) ends the scan. -/
def expandStep (env : Env) (recur : List Char → List Char) (l : List Char) :
    List Char :=
  match breakAtPct l with
  | none => l
  | some (pre, after) =>
    match breakAtPct after with
    | none => l
    | some (name, after2) =>
      if name = [] then
        pre ++ '%' :: '%' :: recur after2
      else
        match getEnv env name with
        | none => pre ++ '%' :: (name ++ '%' :: recur after2)
        | some v => pre ++ v ++ recur after2

/-- Fueled scanning loop; the fuel only makes the recursion structural
(`fuel ≥ length` always suffices because each iteration consumes at
least the two delimiter characters). -/
def expandFuel (env : Env) : Nat → List Char → List Char
  | 0, l => l
  | fuel + 1, l => expandStep env (expandFuel env fuel) l

/-- Model of `ExpandEnvVars` from the optimized variant. -/
def expandEnvVars (env : Env) (l : List Char) : List Char :=
  expandFuel env l.length l

theorem expandStep_congr (env : Env) {f g : List Char → List Char}
    {l : List Char} (h : ∀ x : List Char, x.length < l.length → f x = g x) :
    expandStep env f l = expandStep env g l := by
  unfold expandStep
  split
  · rfl
  · next pre after hb =>
    have hal : after.length < l.length := breakAtPct_some_length hb
    split
    · rfl
    · next name after2 hb2 =>
      have ha2 : after2.length < after.length := breakAtPct_some_length hb2
      have hrec : f after2 = g after2 := h after2 (by omega)
      rw [hrec]

/-- Fueled worker for `NormalizeVariable` (`shim.cpp`, lines 102-131):
identical scan, but every `%NAME%` span (including `%%`, whose empty
name cannot be found) is unconditionally replaced by
`GetVariableValue`'s result, which is the empty string for an absent
name - unresolvable placeholders are deleted, not preserved. -/
def normalizeVarFuel (env : Env) : Nat → List Char → List Char
  | 0, l => l
  | fuel + 1, l =>
    match breakAtPct l with
    | none => l
    | some (pre, after) =>
      match breakAtPct after with
      | none => l
      | some (name, after2) =>
        pre ++ getVariableValue env name ++ normalizeVarFuel env fuel after2

/-- Model of `NormalizeVariable` from `shim.cpp`. -/
def normalizeVariable (env : Env) (l : List Char) : List Char :=
  normalizeVarFuel env l.length l

/-- The hypothesis of the idempotence property: every `%NAME%`
placeholder the scan of `ExpandEnvVars` encounters resolves to an
environment value containing no further `%` characters.  Literal `%%`
escapes and a trailing unmatched `%` are permitted, since they are not
`%NAME%` placeholders. -/
inductive Resolvable (env : Env) : List Char → Prop
  | noDelim {l : List Char} :
      breakAtPct l = none → Resolvable env l
  | noClose {l pre after : List Char} :
      breakAtPct l = some (pre, after) → breakAtPct after = none →
      Resolvable env l
  | escape {l pre after after2 : List Char} :
      breakAtPct l = some (pre, after) →
      breakAtPct after = some ([], after2) →
      Resolvable env after2 → Resolvable env l
  | found {l pre after name after2 v : List Char} :
      breakAtPct l = some (pre, after) →
      breakAtPct after = some (name, after2) →
      name ≠ [] → getEnv env name = some v → '%' ∉ v →
      Resolvable env after2 → Resolvable env l

theorem expandFuel_succ (env : Env) :
    ∀ fuel (l : List Char), l.length ≤ fuel →
      expandFuel env (fuel + 1) l = expandFuel env fuel l := by
  intro fuel
  induction fuel with
  | zero =>
    intro l hl
    have : l = [] := List.length_eq_zero.mp (Nat.le_zero.mp hl)
    subst this
    rfl
  | succ fuel ih =>
    intro l hl
    show expandStep env (expandFuel env (fuel + 1)) l =
      expandStep env (expandFuel env fuel) l
    exact expandStep_congr env (fun x hx => ih x (by omega))

theorem expandFuel_of_le (env : Env) {l : List Char} {fuel : Nat}
    (h : l.length ≤ fuel) :
    expandFuel env fuel l = expandEnvVars env l := by
  induction fuel, h using Nat.le_induction with
  | base => rfl
  | succ fuel hfl ih => rw [expandFuel_succ env fuel l hfl, ih]

/-- Unfolding equation for `expandEnvVars`: it runs one iteration of
the scanning loop and continues as itself. -/
theorem expandEnvVars_eq (env : Env) (l : List Char) :
    expandEnvVars env l = expandStep env (expandEnvVars env) l := by
  cases l with
  | nil => rfl
  | cons c cs =>
    show expandStep env (expandFuel env cs.length) (c :: cs) = _
    exact expandStep_congr env (fun x hx =>
      expandFuel_of_le env (by simpa [Nat.lt_succ_iff] using hx))

/-- Expansion ignores a delimiter-free prefix: scanning starts at the
first `%`. -/
theorem expandEnvVars_append {u : List Char} (hu : '%' ∉ u)
    (env : Env) (l : List Char) :
    expandEnvVars env (u ++ l) = u ++ expandEnvVars env l := by
  rw [expandEnvVars_eq env (u ++ l), expandEnvVars_eq env l]
  unfold expandStep
  rw [breakAtPct_append hu]
  cases hb : breakAtPct l with
  | none => simp
  | some p =>
    obtain ⟨pre, after⟩ := p
    simp only [Option.map_some']
    cases hb2 : breakAtPct after with
    | none => simp
    | some q =>
      obtain ⟨name, after2⟩ := q
      by_cases hn : name = []
      · simp [hn]
      · simp only [if_neg hn]
        cases getEnv env name <;> simp

theorem expandEnvVars_of_noDelim {l : List Char} (env : Env)
    (hb : breakAtPct l = none) : expandEnvVars env l = l := by
  rw [expandEnvVars_eq]
  unfold expandStep
  simp only [hb]

theorem expandEnvVars_of_noClose {l pre after : List Char} (env : Env)
    (hb : breakAtPct l = some (pre, after)) (hb2 : breakAtPct after = none) :
    expandEnvVars env l = l := by
  rw [expandEnvVars_eq]
  unfold expandStep
  simp only [hb, hb2, if_pos]

theorem expandEnvVars_escape {l pre after after2 : List Char} (env : Env)
    (hb : breakAtPct l = some (pre, after))
    (hb2 : breakAtPct after = some ([], after2)) :
    expandEnvVars env l = pre ++ '%' :: '%' :: expandEnvVars env after2 := by
  rw [expandEnvVars_eq]
  unfold expandStep
  simp only [hb, hb2, if_pos]

theorem expandEnvVars_found {l pre after name after2 v : List Char} (env : Env)
    (hb : breakAtPct l = some (pre, after))
    (hb2 : breakAtPct after = some (name, after2))
    (hn : name ≠ []) (hv : getEnv env name = some v) :
    expandEnvVars env l = pre ++ v ++ expandEnvVars env after2 := by
  rw [expandEnvVars_eq]
  unfold expandStep
  simp [hb, hb2, hn, hv]

theorem expandEnvVars_idem (env : Env) {l : List Char} (h : Resolvable env l) :
    expandEnvVars env (expandEnvVars env l) = expandEnvVars env l := by
  induction h with
  | noDelim hb =>
    rw [expandEnvVars_of_noDelim env hb, expandEnvVars_of_noDelim env hb]
  | noClose hb hb2 =>
    rw [expandEnvVars_of_noClose env hb hb2, expandEnvVars_of_noClose env hb hb2]
  | @escape l pre after after2 hb hb2 _ ih =>
    obtain ⟨-, hpre⟩ := breakAtPct_some hb
    rw [expandEnvVars_escape env hb hb2,
      expandEnvVars_escape env (breakAtPct_append_pct hpre _)
        (breakAtPct_cons_pct _), ih]
  | @found l pre after name after2 v hb hb2 hn hv hnp _ ih =>
    obtain ⟨-, hpre⟩ := breakAtPct_some hb
    have hpv : '%' ∉ pre ++ v := by
      simp only [List.mem_append, not_or]
      exact ⟨hpre, hnp⟩
    rw [expandEnvVars_found env hb hb2 hn hv,
      expandEnvVars_append hpv env, ih]

/-- The literal ` = ` separator (`c_separator` / `L" = "`). -/
def sepToken : List Char := [' ', '=', ' ']

/-- The recognized `path` key. -/
def pathKey : List Char := ['p', 'a', 't', 'h']

/-- The recognized `args` key. -/
def argsKey : List Char := ['a', 'r', 'g', 's']

/-- The fixed five-character directory placeholder `%~dp0`
(`s_dirPlaceHolder` / `c_dirPlaceholder`). -/
def dirPlaceholder : List Char := ['%', '~', 'd', 'p', '0']

/-- Index of the first occurrence of `pat` in a list, modelling
`std::wstring::find` of a substring (`npos` becomes `none`). -/
def findSub (pat : List Char) : List Char → Option Nat
  | [] => if pat = [] then some 0 else none
  | c :: tl =>
    if (c :: tl).take pat.length = pat then some 0
    else (findSub pat tl).map (· + 1)

/-- Model of `NormalizeArgsInPlace` (optimized variant, lines 132-138), equally
the body of `NormalizeArgs` (`shim.cpp`, lines 71-86): replaces the
first occurrence of the `%~dp0` placeholder - and only that one - with
the directory of the sidecar file. -/
def normalizeArgsInPlace (args : List Char) (curDir : List Char) : List Char :=
  match findSub dirPlaceholder args with
  | none => args
  | some pos =>
    args.take pos ++ curDir ++ args.drop (pos + dirPlaceholder.length)

/-- Model of `NormalizeArgs` from `shim.cpp`: the same replacement lifted to the
optional `args` value (absent args stay absent). -/
def normalizeArgs (args : Option (List Char)) (curDir : List Char) :
    Option (List Char) :=
  args.map (fun a => normalizeArgsInPlace a curDir)

/-- The state built up while parsing the sidecar file.  The process
environment is threaded through as part of the state so that the
frame property - parsing reads the environment but never writes it -
is a statement, not a modelling assumption. -/
structure ParseState where
  path : Option (List Char)
  args : Option (List Char)
  vars : List (List Char × List Char)
  env : Env

/-- One line of the parsing loop of `GetShimInfo` in `shim.cpp`
(lines 163-209): lines without the ` = ` separator are skipped; a
`path` value is quoted when it contains a space and does not already
start with a quote (the raw value is used - `shim.cpp` performs no
environment expansion here); an `args` value is stored raw; any other
non-empty name appends an environment-variable pair whose value goes
through `NormalizeVariable`. -/
def processLineShim (st : ParseState) (line : List Char) : ParseState :=
  match findSub sepToken line with
  | none => st
  | some pos =>
    let name := line.take pos
    let value := line.drop (pos + sepToken.length)
    if name = pathKey then
      if value.contains ' ' = true ∧ value.head? ≠ some '"' then
        { st with path := some ('"' :: (value ++ ['"'])) }
      else
        { st with path := some value }
    else if name = argsKey then
      { st with args := some value }
    else if name ≠ [] then
      { st with vars := st.vars ++ [(name, normalizeVariable st.env value)] }
    else st

/-- Model of `GetShimInfo` from `shim.cpp` given the lines of an opened sidecar
file (trailing newlines already stripped, as by the `line.back()`
check): folds the per-line step, then applies `NormalizeArgs` once to
the surviving `args` value with the sidecar's directory. -/
def getShimInfoShim (env : Env) (curDir : List Char)
    (lines : List (List Char)) : ParseState :=
  let st := lines.foldl processLineShim ⟨none, none, [], env⟩
  { st with args := normalizeArgs st.args curDir }

/-- Model of `GetShimInfo` from `shim.cpp` including the `_wfopen_s` outcome:
an unopenable sidecar file yields a config with no path and no args
(lines 150-154). -/
def getShimInfoShimFile (env : Env) (curDir : List Char)
    (file : Option (List (List Char))) : ParseState :=
  match file with
  | none => ⟨none, none, [], env⟩
  | some lines => getShimInfoShim env curDir lines

/-- One line of the parsing loop of `GetShimInfo` in the optimized
variant (lines 223-273): empty names are skipped; a `path` value is
environment-expanded first and quoted when the expanded value contains
a space and does not already start with a quote; an `args` value gets
the `%~dp0` replacement immediately; any other name appends an
environment-variable pair with an expanded value. -/
def processLineOpt (curDir : List Char) (st : ParseState) (line : List Char) :
    ParseState :=
  match findSub sepToken line with
  | none => st
  | some pos =>
    let name := line.take pos
    let value := line.drop (pos + sepToken.length)
    if name = [] then st
    else if name = pathKey then
      let expanded := expandEnvVars st.env value
      if expanded.contains ' ' = true ∧
          (expanded = [] ∨ expanded.head? ≠ some '"') then
        { st with path := some ('"' :: (expanded ++ ['"'])) }
      else
        { st with path := some expanded }
    else if name = argsKey then
      { st with args := some (normalizeArgsInPlace value curDir) }
    else
      { st with vars := st.vars ++ [(name, expandEnvVars st.env value)] }

/-- Model of `GetShimInfo` from the optimized variant given the lines of an
opened sidecar file. -/
def getShimInfoOpt (env : Env) (curDir : List Char)
    (lines : List (List Char)) : ParseState :=
  lines.foldl (processLineOpt curDir) ⟨none, none, [], env⟩

/-- Model of `GetShimInfo` from the optimized variant including the `_wfopen_s`
outcome (lines 210-216). -/
def getShimInfoOptFile (env : Env) (curDir : List Char)
    (file : Option (List (List Char))) : ParseState :=
  match file with
  | none => ⟨none, none, [], env⟩
  | some lines => getShimInfoOpt env curDir lines

/-- The `_wputenv_s` loop of `MakeProcess` (both variants): applies
the parsed pairs to the process environment in file order; prepending
makes a later write to the same name shadow an earlier one (last write
wins). -/
def putenvAll (env : Env) (vars : List (List Char × List Char)) : Env :=
  vars.foldl (fun e nv => nv :: e) env

/-- The invocation tail taken from `GetCommandLineW` (both variants,
`shim.cpp` lines 304-312): when the raw command line starts with a
quote, skip the program name plus the two surrounding quotes,
otherwise skip only `wcslen(argv[0])` characters; pointer arithmetic
on the raw buffer becomes `List.drop`. -/
def commandLineTail (cmd : List Char) (argv0Len : Nat) : List Char :=
  if cmd.head? = some '"' then cmd.drop (argv0Len + 2)
  else cmd.drop argv0Len

/-- The final argument string handed to the child: the configured
`args` value with the verbatim invocation tail appended. -/
def finalArgs (cfgArgs cmd : List Char) (argv0Len : Nat) : List Char :=
  cfgArgs ++ commandLineTail cmd argv0Len

/-- Oracle for the operating-system facilities consulted by `wmain`:
whether a process handle was obtained (`CreateProcessW`, or the
`ShellExecuteExW` elevation fallback), the exit code the waited-on
child reports (`GetExitCodeProcess`), and the raw return value of
`SHGetFileInfoW(..., SHGFI_EXETYPE)`. -/
structure OS where
  createOk : Bool
  childExit : Nat
  exeTypeRet : Nat

/-- Computes `HIWORD` of a 32-bit value. -/
def hiword (n : Nat) : Nat := n / 65536 % 65536

/-- Windowed-subsystem test `isWindowsApp = HIWORD(ret) != 0` (both variants). -/
def isWindowsApp (os : OS) : Bool := decide (hiword os.exeTypeRet ≠ 0)

/-- Observable outcome of one run of the shim: the process exit code,
whether the shim blocked waiting for the child, whether a child
process was created, and the command line handed to `MakeProcess`
(`none` when `MakeProcess` was never reached). -/
structure RunResult where
  exitCode : Nat
  waited : Bool
  processCreated : Bool
  attempted : Option (List Char)
  envAfter : Env

/-- Model of `wmain` from `shim.cpp` (lines 289-359): no path means exit 1
before any process work; otherwise the invocation tail is appended,
`MakeProcess` builds `path + ' ' + args`, applies the environment
pairs and creates the child; a created child is waited on - and its
exit code returned verbatim - only when the target is not a windowed
app; a created windowed child yields exit 0 without waiting; no child
yields exit 1. -/
def wmainShim (os : OS) (env : Env) (curDir cmdLine argv0 : List Char)
    (file : Option (List (List Char))) : RunResult :=
  let st := getShimInfoShimFile env curDir file
  match st.path with
  | none => ⟨1, false, false, none, env⟩
  | some p =>
    let args := finalArgs (st.args.getD []) cmdLine argv0.length
    let cmd := p ++ ' ' :: args
    let env2 := putenvAll env st.vars
    if os.createOk then
      if isWindowsApp os then ⟨0, false, true, some cmd, env2⟩
      else ⟨os.childExit, true, true, some cmd, env2⟩
    else ⟨1, false, false, some cmd, env2⟩

/-- Model of `wmain` from the optimized variant (lines 358-430): no path means
exit 1; no process handle means exit 1; otherwise the child is waited
on unconditionally - windowed or not - and its exit code returned. -/
def wmainOpt (os : OS) (env : Env) (curDir cmdLine argv0 : List Char)
    (file : Option (List (List Char))) : RunResult :=
  let st := getShimInfoOptFile env curDir file
  match st.path with
  | none => ⟨1, false, false, none, env⟩
  | some p =>
    let args := finalArgs (st.args.getD []) cmdLine argv0.length
    let cmd := p ++ ' ' :: args
    let env2 := putenvAll env st.vars
    if os.createOk then ⟨os.childExit, true, true, some cmd, env2⟩
    else ⟨1, false, false, some cmd, env2⟩

theorem findSub_self_append (pat b : List Char) :
    findSub pat (pat ++ b) = some 0 := by
  cases hpb : pat ++ b with
  | nil =>
    have hp : pat = [] := (List.append_eq_nil.mp hpb).1
    rw [findSub, if_pos hp]
  | cons c tl =>
    rw [findSub]
    have ht : (c :: tl).take pat.length = pat := by
      rw [← hpb, List.take_left]
    rw [if_pos ht]

theorem findSub_first (pat b : List Char) :
    ∀ a : List Char,
      (∀ j, j < a.length →
        ((a ++ (pat ++ b)).drop j).take pat.length ≠ pat) →
      findSub pat (a ++ (pat ++ b)) = some a.length := by
  intro a
  induction a with
  | nil =>
    intro _
    simpa using findSub_self_append pat b
  | cons c a' ih =>
    intro h
    have h0 : ((c :: a' ++ (pat ++ b)).drop 0).take pat.length ≠ pat := by
      have := h 0 (by simp)
      simpa using this
    rw [List.cons_append, findSub,
      if_neg (by simpa using h0),
      ih (fun j hj => by
        have := h (j + 1) (by simpa using Nat.succ_lt_succ hj)
        simpa using this)]
    rfl

/-- C8: an `args` value containing the `%~dp0` token has its first
occurrence - and only that one - replaced by the sidecar file's own
directory; the rest of the value, later occurrences of the token
included, is preserved verbatim. -/
theorem c8_dir_placeholder_substituted_once (a b curDir : List Char)
    (h : ∀ j, j < a.length →
      ((a ++ (dirPlaceholder ++ b)).drop j).take dirPlaceholder.length ≠
        dirPlaceholder) :
    normalizeArgsInPlace (a ++ (dirPlaceholder ++ b)) curDir =
      a ++ curDir ++ b := by
  unfold normalizeArgsInPlace
  rw [findSub_first dirPlaceholder b a h]
  have ht : (a ++ (dirPlaceholder ++ b)).take a.length = a :=
    List.take_left a (dirPlaceholder ++ b)
  have hd : (a ++ (dirPlaceholder ++ b)).drop (a.length + dirPlaceholder.length)
      = b := by
    rw [← List.append_assoc]
    exact List.drop_left' (by simp)
  simp only [ht, hd, List.append_assoc]

/-- Witness for C8 at a concrete input: in `x %~dp0 y %~dp0` (with no
earlier occurrence of the token) only the first `%~dp0` becomes the
directory `C:\dir`; the second stays verbatim. -/
theorem c8_dir_placeholder_substituted_once_witness :
    normalizeArgsInPlace ("x ".data ++ (dirPlaceholder ++ " y %~dp0".data))
        "C:\\dir".data =
      "x ".data ++ "C:\\dir".data ++ " y %~dp0".data :=
  c8_dir_placeholder_substituted_once "x ".data " y %~dp0".data "C:\\dir".data
    (by decide)

/-- C6: the text appended to the configured `args` is the raw command
line with the shim's own name skipped - the name plus both quotes when
the command line starts with a quote, otherwise exactly
`wcslen(argv[0])` characters - and everything after that point is kept
verbatim, not re-serialized from the parsed argument array. -/
theorem c6_verbatim_tail_forwarding (cfgArgs argv0 rest : List Char)
    (hne : argv0 ≠ []) (hq : argv0.head? ≠ some '"') :
    finalArgs cfgArgs ('"' :: (argv0 ++ '"' :: rest)) argv0.length =
      cfgArgs ++ rest ∧
    finalArgs cfgArgs (argv0 ++ rest) argv0.length = cfgArgs ++ rest := by
  constructor
  · unfold finalArgs commandLineTail
    have hcond : ('"' :: (argv0 ++ '"' :: rest)).head? = some '"' := rfl
    rw [if_pos hcond]
    have : ('"' :: (argv0 ++ '"' :: rest)).drop (argv0.length + 2) = rest := by
      have h2 : ('"' :: argv0 ++ ['"']) ++ rest = '"' :: (argv0 ++ '"' :: rest) := by
        simp
      rw [← h2]
      exact List.drop_left' (by simp)
    rw [this]
  · unfold finalArgs commandLineTail
    have hh : (argv0 ++ rest).head? = argv0.head? := by
      cases argv0 with
      | nil => exact absurd rfl hne
      | cons c tl => rfl
    rw [if_neg (by rw [hh]; exact hq), List.drop_left]

/-- Witness for C6: invoking the shim as `"t u" "an arg"` (quoted
program name `t u`) forwards ` "an arg"` verbatim after the configured
`-a`. -/
theorem c6_verbatim_tail_forwarding_witness :
    finalArgs "-a".data ('"' :: ("t u".data ++ '"' :: " \"an arg\"".data))
        "t u".data.length = "-a".data ++ " \"an arg\"".data ∧
    finalArgs "-a".data ("t u".data ++ " \"an arg\"".data)
        "t u".data.length = "-a".data ++ " \"an arg\"".data :=
  c6_verbatim_tail_forwarding "-a".data "t u".data " \"an arg\"".data
    (by decide) (by decide)

/-- Comparison form for C10: the environment-variable pair a line of
the optimized parser contributes, phrased against one fixed
environment; matching the fold against this per-line map shows that
expansion at parse time reads only the environment the shim
inherited. -/
def lineVarOpt (env : Env) (line : List Char) :
    Option (List Char × List Char) :=
  match findSub sepToken line with
  | none => none
  | some pos =>
    let name := line.take pos
    let value := line.drop (pos + sepToken.length)
    if name = [] then none
    else if name = pathKey then none
    else if name = argsKey then none
    else some (name, expandEnvVars env value)

/-- Comparison form for C10, `shim.cpp` variant. -/
def lineVarShim (env : Env) (line : List Char) :
    Option (List Char × List Char) :=
  match findSub sepToken line with
  | none => none
  | some pos =>
    let name := line.take pos
    let value := line.drop (pos + sepToken.length)
    if name = pathKey then none
    else if name = argsKey then none
    else if name ≠ [] then some (name, normalizeVariable env value)
    else none

theorem processLineOpt_env (curDir : List Char) (st : ParseState)
    (line : List Char) : (processLineOpt curDir st line).env = st.env := by
  unfold processLineOpt
  split
  · rfl
  · dsimp only
    (repeat' split) <;> rfl

theorem processLineShim_env (st : ParseState) (line : List Char) :
    (processLineShim st line).env = st.env := by
  unfold processLineShim
  split
  · rfl
  · dsimp only
    (repeat' split) <;> rfl

theorem processLineOpt_vars (curDir : List Char) (st : ParseState)
    (line : List Char) :
    (processLineOpt curDir st line).vars =
      st.vars ++ (lineVarOpt st.env line).toList := by
  have hAE : argsKey ≠ [] := by decide
  have hPE : pathKey ≠ [] := by decide
  have hAP : argsKey ≠ pathKey := by decide
  unfold processLineOpt lineVarOpt
  cases hf : findSub sepToken line with
  | none => simp
  | some pos =>
    dsimp only
    by_cases hE : line.take pos = []
    · simp [hE]
    · by_cases hP : line.take pos = pathKey
      · simp [hE, hP, hPE]
        split <;> rfl
      · by_cases hA : line.take pos = argsKey
        · simp [hE, hP, hA, hAE, hAP]
        · simp [hE, hP, hA]

theorem processLineShim_vars (st : ParseState) (line : List Char) :
    (processLineShim st line).vars =
      st.vars ++ (lineVarShim st.env line).toList := by
  have hAE : argsKey ≠ [] := by decide
  have hPE : pathKey ≠ [] := by decide
  have hAP : argsKey ≠ pathKey := by decide
  unfold processLineShim lineVarShim
  cases hf : findSub sepToken line with
  | none => simp
  | some pos =>
    dsimp only
    by_cases hP : line.take pos = pathKey
    · simp [hP, hPE]
      split <;> simp
    · by_cases hA : line.take pos = argsKey
      · simp [hP, hA, hAE, hAP]
      · by_cases hE : line.take pos = []
        · simp [hP, hA, hE, hPE, hAE]
        · simp [hP, hA, hE]

theorem foldl_processLineOpt_env (curDir : List Char) :
    ∀ (lines : List (List Char)) (st : ParseState),
      (lines.foldl (processLineOpt curDir) st).env = st.env := by
  intro lines
  induction lines with
  | nil => intro st; rfl
  | cons line rest ih =>
    intro st
    rw [List.foldl_cons, ih, processLineOpt_env]

theorem foldl_processLineShim_env :
    ∀ (lines : List (List Char)) (st : ParseState),
      (lines.foldl processLineShim st).env = st.env := by
  intro lines
  induction lines with
  | nil => intro st; rfl
  | cons line rest ih =>
    intro st
    rw [List.foldl_cons, ih, processLineShim_env]

theorem foldl_processLineOpt_vars (curDir : List Char) :
    ∀ (lines : List (List Char)) (st : ParseState),
      (lines.foldl (processLineOpt curDir) st).vars =
        st.vars ++ lines.filterMap (lineVarOpt st.env) := by
  intro lines
  induction lines with
  | nil => intro st; simp
  | cons line rest ih =>
    intro st
    rw [List.foldl_cons, ih, processLineOpt_vars, processLineOpt_env,
      List.filterMap_cons]
    cases lineVarOpt st.env line <;> simp

theorem foldl_processLineShim_vars :
    ∀ (lines : List (List Char)) (st : ParseState),
      (lines.foldl processLineShim st).vars =
        st.vars ++ lines.filterMap (lineVarShim st.env) := by
  intro lines
  induction lines with
  | nil => intro st; simp
  | cons line rest ih =>
    intro st
    rw [List.foldl_cons, ih, processLineShim_vars, processLineShim_env,
      List.filterMap_cons]
    cases lineVarShim st.env line <;> simp

theorem getEnv_putenvAll (vars : List (List Char × List Char)) :
    ∀ (env : Env) (name : List Char),
      getEnv (putenvAll env vars) name =
        ((vars.reverse.find? (fun p => decide (p.1 = name))).map Prod.snd).or
          (getEnv env name) := by
  induction vars with
  | nil =>
    intro env name
    simp [putenvAll]
  | cons nv rest ih =>
    intro env name
    obtain ⟨n, v⟩ := nv
    show getEnv (putenvAll ((n, v) :: env) rest) name = _
    rw [ih ((n, v) :: env) name, List.reverse_cons, List.find?_append]
    cases hf : rest.reverse.find? (fun p => decide (p.1 = name)) with
    | some q => simp
    | none =>
      by_cases hn : n = name
      · simp [getEnv, List.find?, hn]
      · simp [getEnv, List.find?, hn]

/-- C1: on a windowed target (`HIWORD` of the `SHGFI_EXETYPE` query
is nonzero, here `65536`) whose process handle was obtained and whose
child exits with 7, `shim.cpp`'s `wmain` returns 0 immediately without
waiting - but the optimized variant's `wmain` waits on the very same
windowed launch and returns the child's exit code 7, contradicting the
claimed behaviour for that flow. -/
theorem c1_windowed_nonwait_divergence :
    (wmainShim ⟨true, 7, 65536⟩ [] "C:\\d".data "t".data "t".data
        (some ["path = x".data])).exitCode = 0 ∧
    (wmainShim ⟨true, 7, 65536⟩ [] "C:\\d".data "t".data "t".data
        (some ["path = x".data])).waited = false ∧
    (wmainOpt ⟨true, 7, 65536⟩ [] "C:\\d".data "t".data "t".data
        (some ["path = x".data])).exitCode = 7 ∧
    (wmainOpt ⟨true, 7, 65536⟩ [] "C:\\d".data "t".data "t".data
        (some ["path = x".data])).waited = true := by
  decide

/-- C2: for a console-type target (`HIWORD` of the executable-type
query is zero), when a configuration with a path was resolved and the
child was successfully created, both variants wait on the child and
return its exit code verbatim as the shim's own exit code. -/
theorem c2_exit_code_propagation (os : OS) (env : Env)
    (curDir cmdLine argv0 p : List Char) (file : Option (List (List Char)))
    (hc : os.createOk = true) (hw : isWindowsApp os = false) :
    ((getShimInfoShimFile env curDir file).path = some p →
      (wmainShim os env curDir cmdLine argv0 file).exitCode = os.childExit ∧
      (wmainShim os env curDir cmdLine argv0 file).waited = true) ∧
    ((getShimInfoOptFile env curDir file).path = some p →
      (wmainOpt os env curDir cmdLine argv0 file).exitCode = os.childExit ∧
      (wmainOpt os env curDir cmdLine argv0 file).waited = true) := by
  constructor
  · intro hp
    unfold wmainShim
    simp [hp, hc, hw]
  · intro hp
    unfold wmainOpt
    simp [hp, hc]

/-- Witness for C2: a console child (`exeTypeRet = 0`) exiting with 5
makes both variants of the shim exit with 5. -/
theorem c2_exit_code_propagation_witness :
    (wmainShim ⟨true, 5, 0⟩ [] "C:\\d".data "t".data "t".data
        (some ["path = x".data])).exitCode = 5 ∧
    (wmainOpt ⟨true, 5, 0⟩ [] "C:\\d".data "t".data "t".data
        (some ["path = x".data])).exitCode = 5 := by
  obtain ⟨h1, h2⟩ := c2_exit_code_propagation ⟨true, 5, 0⟩ [] "C:\\d".data
    "t".data "t".data "x".data (some ["path = x".data]) (by decide) (by decide)
  exact ⟨(h1 (by decide)).1, (h2 (by decide)).1⟩

/-- C3: when the sidecar file cannot be opened, both parsers yield a
config with no path and no args, and both top-level flows exit with
code 1 having never reached `MakeProcess`: no command line is built
(`attempted = none`), no process is created, nothing is waited on, and
the environment is untouched. -/
theorem c3_unopenable_sidecar_exits_one (os : OS) (env : Env)
    (curDir cmdLine argv0 : List Char) :
    (getShimInfoShimFile env curDir none).path = none ∧
    (getShimInfoShimFile env curDir none).args = none ∧
    (getShimInfoOptFile env curDir none).path = none ∧
    (getShimInfoOptFile env curDir none).args = none ∧
    wmainShim os env curDir cmdLine argv0 none =
      ⟨1, false, false, none, env⟩ ∧
    wmainOpt os env curDir cmdLine argv0 none =
      ⟨1, false, false, none, env⟩ :=
  ⟨rfl, rfl, rfl, rfl, rfl, rfl⟩

/-- C4: divergence on an unresolvable placeholder.  The optimized
variant's `ExpandEnvVars` returns `%DOES_NOT_EXIST_XYZ%` completely
unmodified, as the claim states; `shim.cpp`'s `NormalizeVariable`
instead replaces the whole span with the empty string that
`GetVariableValue` reports for an absent name, deleting the
placeholder. -/
theorem c4_unresolved_placeholder_divergence :
    expandEnvVars [] "%DOES_NOT_EXIST_XYZ%".data =
      "%DOES_NOT_EXIST_XYZ%".data ∧
    normalizeVariable [] "%DOES_NOT_EXIST_XYZ%".data = [] := by
  decide

/-- C5: divergence on environment expansion of the `path` value.  For
`path = %FOO%` with `FOO=abc` in the environment, the optimized parser
stores the expanded `abc` as the claim states, while `shim.cpp` stores
the raw `%FOO%` unexpanded.  The quoting rule itself - quote exactly
when the value contains a space and does not already start with a
quote - behaves identically in both variants, shown here on the three
quoting cases. -/
theorem c5_path_expansion_divergence :
    (getShimInfoShim [("FOO".data, "abc".data)] "C:\\d".data
        ["path = %FOO%".data]).path = some "%FOO%".data ∧
    (getShimInfoOpt [("FOO".data, "abc".data)] "C:\\d".data
        ["path = %FOO%".data]).path = some "abc".data ∧
    (getShimInfoShim [] "C:\\d".data ["path = a b".data]).path =
      some "\"a b\"".data ∧
    (getShimInfoOpt [] "C:\\d".data ["path = a b".data]).path =
      some "\"a b\"".data ∧
    (getShimInfoShim [] "C:\\d".data ["path = ab".data]).path =
      some "ab".data ∧
    (getShimInfoOpt [] "C:\\d".data ["path = ab".data]).path =
      some "ab".data ∧
    (getShimInfoShim [] "C:\\d".data ["path = \"a b\"".data]).path =
      some "\"a b\"".data ∧
    (getShimInfoOpt [] "C:\\d".data ["path = \"a b\"".data]).path =
      some "\"a b\"".data := by
  decide

/-- C7: divergence on the `%%` escape.  The optimized variant's
`ExpandEnvVars` leaves `100%%done` untouched as the claim states;
`shim.cpp`'s `NormalizeVariable` deletes the `%%` pair (empty name,
`GetVariableValue` returns the empty string), producing `100done`. -/
theorem c7_escape_divergence :
    expandEnvVars [] "100%%done".data = "100%%done".data ∧
    normalizeVariable [] "100%%done".data = "100done".data := by
  decide

/-- C9: expansion is stable under a second pass when every `%NAME%`
placeholder the scan meets resolves to an environment value without
further `%` characters - substitution is single-pass and replacement
text is never re-scanned. -/
theorem c9_expansion_idempotent_on_defined (env : Env) (l : List Char)
    (h : Resolvable env l) :
    expandEnvVars env (expandEnvVars env l) = expandEnvVars env l :=
  expandEnvVars_idem env h

/-- Witness for C9: with `A=x`, the string `%A%%%b` (one resolvable
placeholder followed by a literal `%%` escape) expands to `x%%b`, and
a second expansion pass leaves that result unchanged. -/
theorem c9_expansion_idempotent_on_defined_witness :
    expandEnvVars [("A".data, "x".data)] "%A%%%b".data = "x%%b".data ∧
    expandEnvVars [("A".data, "x".data)]
        (expandEnvVars [("A".data, "x".data)] "%A%%%b".data) =
      expandEnvVars [("A".data, "x".data)] "%A%%%b".data := by
  refine ⟨by decide, ?_⟩
  exact c9_expansion_idempotent_on_defined [("A".data, "x".data)] "%A%%%b".data
    (@Resolvable.found [("A".data, "x".data)] "%A%%%b".data [] "A%%%b".data
      "A".data "%%b".data "x".data (by decide) (by decide) (by decide)
      (by decide) (by decide)
      (@Resolvable.escape [("A".data, "x".data)] "%%b".data [] "%b".data
        "b".data (by decide) (by decide)
        (@Resolvable.noDelim [("A".data, "x".data)] "b".data (by decide))))

/-- C10: parsing never writes the process environment - the
environment threaded through both parsing folds comes back untouched;
every parsed pair's value is expanded against that one inherited
environment (the fold equals a per-line map over the fixed initial
environment), so a custom variable assigned on an earlier line is not
visible while expanding a later line - concretely, after `FOO = bar`,
a later `X = %FOO%` still sees no `FOO`; the pairs reach the
environment only through the `_wputenv_s` loop of `MakeProcess`
(`putenvAll`), whose effect on lookups is exactly last-write-wins over
the inherited environment. -/
theorem c10_parse_reads_env_only :
    (∀ (env : Env) (curDir : List Char) (lines : List (List Char)),
      (getShimInfoOpt env curDir lines).env = env ∧
      (getShimInfoShim env curDir lines).env = env) ∧
    (∀ (env : Env) (curDir : List Char) (lines : List (List Char)),
      (getShimInfoOpt env curDir lines).vars =
        lines.filterMap (lineVarOpt env) ∧
      (getShimInfoShim env curDir lines).vars =
        lines.filterMap (lineVarShim env)) ∧
    (∀ (env : Env) (vars : List (List Char × List Char)) (name : List Char),
      getEnv (putenvAll env vars) name =
        ((vars.reverse.find? (fun p => decide (p.1 = name))).map Prod.snd).or
          (getEnv env name)) ∧
    (getShimInfoOpt [] [] ["FOO = bar".data, "X = %FOO%".data]).vars =
      [("FOO".data, "bar".data), ("X".data, "%FOO%".data)] := by
  refine ⟨?_, ?_, fun env vars name => getEnv_putenvAll vars env name,
    by decide⟩
  · intro env curDir lines
    exact ⟨foldl_processLineOpt_env curDir lines _,
      foldl_processLineShim_env lines _⟩
  · intro env curDir lines
    constructor
    · simpa using foldl_processLineOpt_vars curDir lines ⟨none, none, [], env⟩
    · simpa using foldl_processLineShim_vars lines ⟨none, none, [], env⟩
